import Mathlib

/-!
A shallow embedding of the terrain-slope analysis pipeline implemented in
`src/index.tsx` (and its near-duplicate `src/unnamed/part_000`): slippy-tile
coordinate math, mosaic assembly from fetched elevation tiles, per-pixel
slope computation and classification, accumulation of polygon rings into a
single clipping path, and world-file export values.  Definitions follow the
source code; theorems settle the specification's claims about them.

Numbers are modelled as real numbers (the source computes with JS doubles /
`Float32Array`s); tile indices, which the source produces with `Math.floor`,
are modelled as integers.
-/

namespace SlopeAnalysis

/-- Constant `TILE_ZOOM = 12` (src/index.tsx line 11). -/
def TILE_ZOOM : ℕ := 12

/-- Constant `TILE_SIZE = 512` (src/index.tsx line 12). -/
def TILE_SIZE : ℕ := 512

/-- One entry of the `SLOPE_RANGES` table: an inclusive upper breakpoint in
degrees, a display label and a hex color. -/
structure SlopeRange where
  max : ℝ
  label : String
  color : String

/-- The fixed ten-class slope table `SLOPE_RANGES` (src/index.tsx lines 16-27). -/
def SLOPE_RANGES : List SlopeRange :=
  [⟨2, "0° - 2°", "#2ecc71"⟩,
   ⟨5, "2° - 5°", "#58d68d"⟩,
   ⟨9, "5° - 9°", "#82e0aa"⟩,
   ⟨15, "9° - 15°", "#f7dc6f"⟩,
   ⟨20, "15° - 20°", "#f1c40f"⟩,
   ⟨25, "20° - 25°", "#f39c12"⟩,
   ⟨30, "25° - 30°", "#e67e22"⟩,
   ⟨35, "30° - 35°", "#d35400"⟩,
   ⟨45, "35° - 45°", "#c0392b"⟩,
   ⟨999, "> 45°", "#922b21"⟩]

/-- The classification loop body of `performTerrainAnalysis` (src/index.tsx
lines 307-313): walk the table in order and return the color of the first
entry whose `max` bound is at or above the slope; if the walk falls off the
end the loop's initial value `'#00000000'` remains. -/
noncomputable def classifyGo (slopeDeg : ℝ) : List SlopeRange → String
  | [] => "#00000000"
  | r :: rs => if slopeDeg ≤ r.max then r.color else classifyGo slopeDeg rs

/-- Classification of one slope value against the full `SLOPE_RANGES` table. -/
noncomputable def classifyColor (slopeDeg : ℝ) : String :=
  classifyGo slopeDeg SLOPE_RANGES

/-- The georeferencing metadata saved for export (`setGeoData`,
src/index.tsx lines 380-389); only the fields read by `handleDownload`'s
world-file computation are kept. -/
structure GeoData where
  width : ℕ
  height : ℕ
  north : ℝ
  west : ℝ
  pixelW : ℝ
  pixelH : ℝ

/-- The six world-file values written by `handleDownload` (src/index.tsx
lines 412-423): `ulX = west + pixelW / 2`, `ulY = north - pixelH / 2`, and
the list `[pixelW, 0, 0, -pixelH, ulX, ulY]`. -/
noncomputable def tfwValues (g : GeoData) : List ℝ :=
  [g.pixelW, 0, 0, -g.pixelH, g.west + g.pixelW / 2, g.north - g.pixelH / 2]

/-- If the first `pre` entries of the table all have `max` below the slope
and the next entry `r` admits it, the classification loop stops at `r`. -/
lemma classifyGo_first (s : ℝ) :
    ∀ (pre : List SlopeRange) (r : SlopeRange) (post : List SlopeRange),
      (∀ r' ∈ pre, ¬ s ≤ r'.max) → s ≤ r.max →
      classifyGo s (pre ++ r :: post) = r.color := by
  intro pre
  induction pre with
  | nil =>
    intro r post _ hr
    simp [classifyGo, hr]
  | cons a t ih =>
    intro r post hpre hr
    simp only [List.cons_append, classifyGo]
    rw [if_neg (hpre a (by simp))]
    exact ih r post (fun r' h => hpre r' (by simp [h])) hr

/-- Claim C2: classification assigns to a pixel the color of the first entry,
in ascending order of the fixed breakpoint table (2, 5, 9, 15, 20, 25, 30,
35, 45, 999), whose `max` is greater than or equal to the pixel's slope; in
particular a slope of exactly 2.0 degrees gets the first class's color and a
slope of 2.0001 degrees gets the second class's color. -/
theorem classification_first_match :
    (∀ (s : ℝ) (pre : List SlopeRange) (r : SlopeRange) (post : List SlopeRange),
        SLOPE_RANGES = pre ++ r :: post →
        (∀ r' ∈ pre, ¬ s ≤ r'.max) → s ≤ r.max →
        classifyColor s = r.color) ∧
    classifyColor 2 = "#2ecc71" ∧ classifyColor 2.0001 = "#58d68d" := by
  refine ⟨?_, ?_, ?_⟩
  · intro s pre r post htab hpre hr
    rw [classifyColor, htab]
    exact classifyGo_first s pre r post hpre hr
  · norm_num [classifyColor, SLOPE_RANGES, classifyGo]
  · norm_num [classifyColor, SLOPE_RANGES, classifyGo]

/-- Witness for C2: the first-match rule applied at slope 3 with the first
table entry rejected and the second accepted. -/
theorem classification_first_match_witness :
    classifyColor 3 = "#58d68d" := by
  refine classification_first_match.1 3
    [⟨2, "0° - 2°", "#2ecc71"⟩] ⟨5, "2° - 5°", "#58d68d"⟩
    (SLOPE_RANGES.drop 2) rfl ?_ (by norm_num)
  intro r' hr'
  rw [List.mem_singleton] at hr'
  subst hr'
  norm_num

/-- Claim C7: the exported world-file contains exactly the six values
`[pixelW, 0, 0, -pixelH, west + pixelW/2, north - pixelH/2]` in that order
(pixel-center convention), and for `pixelW = pixelH = 0.001`, `west = 10.0`,
`north = 50.0` the origin X is `10.0005` and the origin Y is `49.9995`. -/
theorem worldfile_values :
    (∀ g : GeoData, tfwValues g =
      [g.pixelW, 0, 0, -g.pixelH, g.west + g.pixelW / 2, g.north - g.pixelH / 2]) ∧
    tfwValues ⟨0, 0, 50, 10, 0.001, 0.001⟩ =
      [0.001, 0, 0, -0.001, 10.0005, 49.9995] := by
  refine ⟨fun g => rfl, ?_⟩
  norm_num [tfwValues]

/-- North neighbor read `mosaicData[(y - 1) * mosaicWidth + x]`. -/
noncomputable def zNorth (md : ℕ → ℝ) (W x y : ℕ) : ℝ := md ((y - 1) * W + x)

/-- South neighbor read `mosaicData[(y + 1) * mosaicWidth + x]`. -/
noncomputable def zSouth (md : ℕ → ℝ) (W x y : ℕ) : ℝ := md ((y + 1) * W + x)

/-- East neighbor read `mosaicData[y * mosaicWidth + (x + 1)]`. -/
noncomputable def zEast (md : ℕ → ℝ) (W x y : ℕ) : ℝ := md (y * W + (x + 1))

/-- West neighbor read `mosaicData[y * mosaicWidth + (x - 1)]`. -/
noncomputable def zWestN (md : ℕ → ℝ) (W x y : ℕ) : ℝ := md (y * W + (x - 1))

/-- The nodata guard of the slope loop (src/index.tsx line 293):
`zN < -10000 || zS < -10000 || zE < -10000 || zW < -10000`. -/
def isNodataAt (md : ℕ → ℝ) (W x y : ℕ) : Prop :=
  zNorth md W x y < -10000 ∨ zSouth md W x y < -10000 ∨
  zEast md W x y < -10000 ∨ zWestN md W x y < -10000

open Classical in
/-- The slope value the loop body computes for pixel `(x, y)`
(src/index.tsx lines 288-305): nodata pixels get 0, otherwise
`atan(sqrt(dzdx*dzdx + dzdy*dzdy)) * (180/pi)` with the central
differences `dzdx = (zE - zW)/(2*cellSizeX)`, `dzdy = (zN - zS)/(2*cellSizeY)`. -/
noncomputable def slopeAt (md : ℕ → ℝ) (W : ℕ) (cellSizeX cellSizeY : ℝ) (x y : ℕ) : ℝ :=
  if isNodataAt md W x y then 0
  else
    let dzdx := (zEast md W x y - zWestN md W x y) / (2 * cellSizeX)
    let dzdy := (zNorth md W x y - zSouth md W x y) / (2 * cellSizeY)
    Real.arctan (Real.sqrt (dzdx * dzdx + dzdy * dzdy)) * (180 / Real.pi)

/-- Loop bounds of the slope sweep (src/index.tsx lines 284-285):
`1 <= y < mosaicHeight - 1` and `1 <= x < mosaicWidth - 1`. -/
def interiorAt (W H x y : ℕ) : Prop :=
  1 ≤ y ∧ y < H - 1 ∧ 1 ≤ x ∧ x < W - 1

open Classical in
/-- The `slopeData` buffer after the sweep: only interior pixels are ever
written (zero-initialized `Float32Array` elsewhere), and each written pixel
holds the loop body's value.  Flat index decomposed as `x = idx % W`,
`y = idx / W`, matching `idx = y * mosaicWidth + x`. -/
noncomputable def slopeData (md : ℕ → ℝ) (W H : ℕ) (csX csY : ℝ) (idx : ℕ) : ℝ :=
  if interiorAt W H (idx % W) (idx / W) then slopeAt md W csX csY (idx % W) (idx / W)
  else 0

open Classical in
/-- The `rgbaData` byte buffer after the sweep: the loop writes bytes
`idx*4 .. idx*4+3` only for interior non-nodata pixels (the nodata branch
`continue`s before the RGBA writes), storing the chroma-decoded classified
color and the fixed alpha 210; all other bytes stay at the zero default.
The hex-to-RGB decoding performed by the external `chroma` library is kept
abstract as `hexToRGB`. -/
noncomputable def rgbaData (hexToRGB : String → ℕ × ℕ × ℕ) (md : ℕ → ℝ) (W H : ℕ)
    (csX csY : ℝ) (i : ℕ) : ℕ :=
  let idx := i / 4
  let x := idx % W
  let y := idx / W
  if interiorAt W H x y ∧ ¬ isNodataAt md W x y then
    let color := classifyColor (slopeAt md W csX csY x y)
    if i % 4 = 0 then (hexToRGB color).1
    else if i % 4 = 1 then (hexToRGB color).2.1
    else if i % 4 = 2 then (hexToRGB color).2.2
    else 210
  else 0

/-- The RGBA buffer keeps its zero default at any byte whose pixel fails the
interior/non-nodata write condition. -/
lemma rgbaData_eq_zero (hexToRGB : String → ℕ × ℕ × ℕ) (md : ℕ → ℝ) (W H : ℕ)
    (csX csY : ℝ) (i : ℕ)
    (h : ¬ (interiorAt W H (i / 4 % W) (i / 4 / W) ∧
            ¬ isNodataAt md W (i / 4 % W) (i / 4 / W))) :
    rgbaData hexToRGB md W H csX csY i = 0 := by
  simp only [rgbaData]
  rw [if_neg h]

/-- Recover pixel coordinates from the flat index `y * W + x` when `x < W`. -/
lemma idx_recover (W x y : ℕ) (hx : x < W) :
    (y * W + x) % W = x ∧ (y * W + x) / W = y := by
  have hW : 0 < W := lt_of_le_of_lt (Nat.zero_le x) hx
  constructor
  · rw [mul_comm, Nat.mul_add_mod, Nat.mod_eq_of_lt hx]
  · rw [mul_comm, Nat.mul_add_div hW, Nat.div_eq_of_lt hx, Nat.add_zero]

/-- Interior pixels have `x < W` and `y < H`. -/
lemma interiorAt_lt {W H x y : ℕ} (h : interiorAt W H x y) : x < W ∧ y < H := by
  obtain ⟨h1, h2, h3, h4⟩ := h
  omega

/-- Claim C1: for every interior pixel with all four neighbor elevations at
or above the nodata threshold, the computed slope equals
`atan(sqrt(dzdx^2 + dzdy^2)) * 180/pi` with `dzdx = (east - west)/(2*cellSizeX)`
and `dzdy = (north - south)/(2*cellSizeY)`; and for a mosaic of constant
(valid) elevation every interior pixel's slope is 0 and its classified color
is the first class of the table. -/
theorem slope_central_difference :
    (∀ (md : ℕ → ℝ) (W H : ℕ) (csX csY : ℝ) (x y : ℕ),
        interiorAt W H x y → ¬ isNodataAt md W x y →
        slopeData md W H csX csY (y * W + x) =
          Real.arctan (Real.sqrt
            (((zEast md W x y - zWestN md W x y) / (2 * csX)) ^ 2 +
             ((zNorth md W x y - zSouth md W x y) / (2 * csY)) ^ 2)) *
            (180 / Real.pi)) ∧
    (∀ (c : ℝ) (W H : ℕ) (csX csY : ℝ) (x y : ℕ), ¬ c < -10000 →
        interiorAt W H x y →
        slopeData (fun _ => c) W H csX csY (y * W + x) = 0 ∧
        classifyColor (slopeAt (fun _ => c) W csX csY x y) = "#2ecc71") := by
  constructor
  · intro md W H csX csY x y hin hnd
    obtain ⟨hrm, hrd⟩ := idx_recover W x y (interiorAt_lt hin).1
    rw [slopeData, hrm, hrd, if_pos hin, slopeAt, if_neg hnd]
    simp only [pow_two]
  · intro c W H csX csY x y hc hin
    have hnd : ¬ isNodataAt (fun _ => c) W x y := by
      simp [isNodataAt, zNorth, zSouth, zEast, zWestN, hc]
    have hslope : slopeAt (fun _ => c) W csX csY x y = 0 := by
      rw [slopeAt, if_neg hnd]
      simp [zNorth, zSouth, zEast, zWestN]
    obtain ⟨hrm, hrd⟩ := idx_recover W x y (interiorAt_lt hin).1
    refine ⟨?_, ?_⟩
    · rw [slopeData, hrm, hrd, if_pos hin, hslope]
    · rw [hslope]
      norm_num [classifyColor, SLOPE_RANGES, classifyGo]

/-- Witness for C1: a constant zero-elevation 3×3 mosaic at pixel (1,1). -/
theorem slope_central_difference_witness :
    (¬ (0:ℝ) < -10000) ∧ interiorAt 3 3 1 1 ∧
    slopeData (fun _ => (0:ℝ)) 3 3 1 1 (1 * 3 + 1) = 0 ∧
    classifyColor (slopeAt (fun _ => (0:ℝ)) 3 1 1 1 1) = "#2ecc71" := by
  have h0 : ¬ (0:ℝ) < -10000 := by norm_num
  have hin : interiorAt 3 3 1 1 := by
    refine ⟨le_refl 1, ?_, le_refl 1, ?_⟩ <;> norm_num
  obtain ⟨h1, h2⟩ := slope_central_difference.2 0 3 3 1 1 1 1 h0 hin
  exact ⟨h0, hin, h1, h2⟩

/-- Claim C3: for every interior pixel, if any of its four neighborhood
elevation samples is below -10000, the pixel's slope is set to 0 and its
four RGBA output bytes stay at their zero (fully transparent) defaults. -/
theorem nodata_guard (hexToRGB : String → ℕ × ℕ × ℕ) (md : ℕ → ℝ) (W H : ℕ)
    (csX csY : ℝ) (x y : ℕ)
    (hin : interiorAt W H x y) (hnd : isNodataAt md W x y) :
    slopeData md W H csX csY (y * W + x) = 0 ∧
    ∀ ch < 4, rgbaData hexToRGB md W H csX csY ((y * W + x) * 4 + ch) = 0 := by
  obtain ⟨hrm, hrd⟩ := idx_recover W x y (interiorAt_lt hin).1
  constructor
  · rw [slopeData, hrm, hrd, if_pos hin, slopeAt, if_pos hnd]
  · intro ch hch
    have hi4 : ((y * W + x) * 4 + ch) / 4 = y * W + x := by omega
    apply rgbaData_eq_zero
    rw [hi4, hrm, hrd]
    rintro ⟨-, hnot⟩
    exact hnot hnd

/-- Witness for C3: a constant mosaic at elevation -20000 (below the nodata
threshold) makes pixel (1,1) of a 3×3 raster transparent with slope 0. -/
theorem nodata_guard_witness :
    interiorAt 3 3 1 1 ∧ isNodataAt (fun _ => (-20000 : ℝ)) 3 1 1 ∧
    slopeData (fun _ => (-20000 : ℝ)) 3 3 1 1 (1 * 3 + 1) = 0 ∧
    rgbaData (fun _ => (0, 0, 0)) (fun _ => (-20000 : ℝ)) 3 3 1 1 ((1 * 3 + 1) * 4 + 3) = 0 := by
  have hin : interiorAt 3 3 1 1 := by
    refine ⟨le_refl 1, ?_, le_refl 1, ?_⟩ <;> norm_num
  have hnd : isNodataAt (fun _ => (-20000 : ℝ)) 3 1 1 := by
    left
    show (-20000 : ℝ) < -10000
    norm_num
  obtain ⟨h1, h2⟩ := nodata_guard (fun _ => (0, 0, 0)) (fun _ => (-20000 : ℝ)) 3 3 1 1 1 1 hin hnd
  exact ⟨hin, hnd, h1, h2 3 (by norm_num)⟩

/-- Claim C9: the outermost one-pixel border of the raster (row 0, row
`height - 1`, column 0, column `width - 1`) is never written: its slope
value and all four RGBA bytes equal the zero-initialized defaults, for every
input mosaic. -/
theorem border_untouched (hexToRGB : String → ℕ × ℕ × ℕ) (md : ℕ → ℝ) (W H : ℕ)
    (csX csY : ℝ) (idx : ℕ) (hidx : idx < W * H)
    (hborder : idx / W = 0 ∨ idx / W = H - 1 ∨ idx % W = 0 ∨ idx % W = W - 1) :
    slopeData md W H csX csY idx = 0 ∧
    ∀ ch < 4, rgbaData hexToRGB md W H csX csY (idx * 4 + ch) = 0 := by
  have hW : 0 < W := by
    rcases Nat.eq_zero_or_pos W with h | h
    · subst h; omega
    · exact h
  have hnotin : ¬ interiorAt W H (idx % W) (idx / W) := by
    have hmod : idx % W < W := Nat.mod_lt idx hW
    rintro ⟨h1, h2, h3, h4⟩
    omega
  constructor
  · rw [slopeData, if_neg hnotin]
  · intro ch hch
    have hi4 : (idx * 4 + ch) / 4 = idx := by omega
    apply rgbaData_eq_zero
    rw [hi4]
    rintro ⟨hin, -⟩
    exact hnotin hin

/-- Witness for C9: border pixel with flat index 0 of a 3×3 raster over a
constant mosaic keeps slope 0 and zero RGBA bytes. -/
theorem border_untouched_witness :
    (0 < 3 * 3 ∧ (0 / 3 = 0 ∨ 0 / 3 = 3 - 1 ∨ 0 % 3 = 0 ∨ 0 % 3 = 3 - 1)) ∧
    slopeData (fun _ => (7 : ℝ)) 3 3 1 1 0 = 0 ∧
    rgbaData (fun _ => (0, 0, 0)) (fun _ => (7 : ℝ)) 3 3 1 1 (0 * 4 + 0) = 0 := by
  have h := border_untouched (fun _ => (0, 0, 0)) (fun _ => (7 : ℝ)) 3 3 1 1 0
    (by norm_num) (Or.inl (by norm_num))
  exact ⟨⟨by norm_num, Or.inl (by norm_num)⟩, h.1, h.2 0 (by norm_num)⟩

/-- If some entry of the list admits the slope, the classification loop
returns the color of some entry of the list. -/
lemma classifyGo_mem (s : ℝ) :
    ∀ l : List SlopeRange, (∃ r ∈ l, s ≤ r.max) →
      ∃ r ∈ l, classifyGo s l = r.color := by
  intro l
  induction l with
  | nil => rintro ⟨r, hr, -⟩; cases hr
  | cons a t ih =>
    rintro ⟨r, hr, hle⟩
    by_cases ha : s ≤ a.max
    · exact ⟨a, by simp, by simp [classifyGo, ha]⟩
    · have hrt : r ∈ t := by
        rcases List.mem_cons.1 hr with h | h
        · subst h; exact absurd hle ha
        · exact h
      obtain ⟨r', hr', heq⟩ := ih ⟨r, hrt, hle⟩
      exact ⟨r', by simp [hr'], by simp [classifyGo, ha, heq]⟩

/-- Claim C10: for every interior non-nodata pixel the computed slope lies in
`[0, 90)`, below the final breakpoint 999, so the classification loop always
selects some entry of the table and the fallback color `'#00000000'` is
never the color actually used. -/
theorem slope_in_range_classified (md : ℕ → ℝ) (W H : ℕ) (csX csY : ℝ) (x y : ℕ)
    (hin : interiorAt W H x y) (hnd : ¬ isNodataAt md W x y) :
    0 ≤ slopeAt md W csX csY x y ∧ slopeAt md W csX csY x y < 90 ∧
    (∃ r ∈ SLOPE_RANGES, classifyColor (slopeAt md W csX csY x y) = r.color) ∧
    classifyColor (slopeAt md W csX csY x y) ≠ "#00000000" := by
  have hpi : (0:ℝ) < Real.pi := Real.pi_pos
  have hfac : (0:ℝ) < 180 / Real.pi := by positivity
  rw [slopeAt, if_neg hnd]
  set v := Real.sqrt
    ((zEast md W x y - zWestN md W x y) / (2 * csX) *
      ((zEast md W x y - zWestN md W x y) / (2 * csX)) +
     (zNorth md W x y - zSouth md W x y) / (2 * csY) *
      ((zNorth md W x y - zSouth md W x y) / (2 * csY))) with hv
  have hv0 : 0 ≤ v := Real.sqrt_nonneg _
  have harc0 : 0 ≤ Real.arctan v := by
    have := Real.arctan_strictMono.monotone hv0
    rwa [Real.arctan_zero] at this
  have hlow : 0 ≤ Real.arctan v * (180 / Real.pi) := by positivity
  have hhigh : Real.arctan v * (180 / Real.pi) < 90 := by
    have h1 : Real.arctan v < Real.pi / 2 := Real.arctan_lt_pi_div_two v
    have h2 : Real.arctan v * (180 / Real.pi) < (Real.pi / 2) * (180 / Real.pi) :=
      mul_lt_mul_of_pos_right h1 hfac
    have h3 : (Real.pi / 2) * (180 / Real.pi) = 90 := by
      field_simp
      ring
    linarith
  refine ⟨hlow, hhigh, ?_, ?_⟩
  · apply classifyGo_mem
    exact ⟨⟨999, "> 45°", "#922b21"⟩, by simp [SLOPE_RANGES], by norm_num; linarith⟩
  · obtain ⟨r, hr, heq⟩ := classifyGo_mem (Real.arctan v * (180 / Real.pi)) SLOPE_RANGES
      ⟨⟨999, "> 45°", "#922b21"⟩, by simp [SLOPE_RANGES], by norm_num; linarith⟩
    rw [classifyColor, heq]
    fin_cases hr <;> decide

/-- Witness for C10: the constant zero mosaic at pixel (1,1) of a 3×3 raster. -/
theorem slope_in_range_classified_witness :
    interiorAt 3 3 1 1 ∧ ¬ isNodataAt (fun _ => (0:ℝ)) 3 1 1 ∧
    0 ≤ slopeAt (fun _ => (0:ℝ)) 3 1 1 1 1 ∧ slopeAt (fun _ => (0:ℝ)) 3 1 1 1 1 < 90 ∧
    classifyColor (slopeAt (fun _ => (0:ℝ)) 3 1 1 1 1) ≠ "#00000000" := by
  have hin : interiorAt 3 3 1 1 := by
    refine ⟨le_refl 1, ?_, le_refl 1, ?_⟩ <;> norm_num
  have hnd : ¬ isNodataAt (fun _ => (0:ℝ)) 3 1 1 := by
    simp [isNodataAt, zNorth, zSouth, zEast, zWestN]
  obtain ⟨h1, h2, -, h4⟩ := slope_in_range_classified (fun _ => (0:ℝ)) 3 3 1 1 1 1 hin hnd
  exact ⟨hin, hnd, h1, h2, h4⟩

/-- Function `lng2tile` (src/index.tsx line 31): `floor((lon + 180) / 360 * 2^zoom)`. -/
noncomputable def lng2tile (lon : ℝ) (zoom : ℕ) : ℤ :=
  ⌊(lon + 180) / 360 * 2 ^ zoom⌋

/-- Function `lat2tile` (src/index.tsx line 32):
`floor((1 - ln(tan(lat*pi/180) + 1/cos(lat*pi/180))/pi)/2 * 2^zoom)`. -/
noncomputable def lat2tile (lat : ℝ) (zoom : ℕ) : ℤ :=
  ⌊(1 - Real.log (Real.tan (lat * Real.pi / 180) +
      1 / Real.cos (lat * Real.pi / 180)) / Real.pi) / 2 * 2 ^ zoom⌋

/-- Function `tile2lng` (src/index.tsx line 33): `x / 2^z * 360 - 180`. -/
noncomputable def tile2lng (x : ℤ) (z : ℕ) : ℝ :=
  (x : ℝ) / 2 ^ z * 360 - 180

/-- Function `tile2lat` (src/index.tsx lines 34-37):
`n = pi - 2*pi*y/2^z; 180/pi * atan(0.5 * (exp n - exp (-n)))`. -/
noncomputable def tile2lat (y : ℤ) (z : ℕ) : ℝ :=
  let n := Real.pi - 2 * Real.pi * (y : ℝ) / 2 ^ z
  180 / Real.pi * Real.arctan (0.5 * (Real.exp n - Real.exp (-n)))

lemma two_pow_pos' (z : ℕ) : (0:ℝ) < 2 ^ z := by positivity

/-- Inequality `tile2lng x z < lon` with denominators cleared. -/
lemma tile2lng_lt_iff {x : ℤ} {z : ℕ} {lon : ℝ} :
    tile2lng x z < lon ↔ (x : ℝ) * 360 < (lon + 180) * 2 ^ z := by
  rw [tile2lng, sub_lt_iff_lt_add, div_mul_eq_mul_div,
    div_lt_iff₀ (two_pow_pos' z)]

/-- Inequality `tile2lng x z ≤ lon` with denominators cleared. -/
lemma tile2lng_le_iff {x : ℤ} {z : ℕ} {lon : ℝ} :
    tile2lng x z ≤ lon ↔ (x : ℝ) * 360 ≤ (lon + 180) * 2 ^ z := by
  rw [tile2lng, sub_le_iff_le_add, div_mul_eq_mul_div,
    div_le_iff₀ (two_pow_pos' z)]

/-- Equation `lng2tile lon z = x` unfolded through `Int.floor_eq_iff`. -/
lemma lng2tile_eq_iff {lon : ℝ} {z : ℕ} {x : ℤ} :
    lng2tile lon z = x ↔
      (x : ℝ) * 360 ≤ (lon + 180) * 2 ^ z ∧ (lon + 180) * 2 ^ z < ((x : ℝ) + 1) * 360 := by
  rw [lng2tile, Int.floor_eq_iff, div_mul_eq_mul_div, le_div_iff₀ (by norm_num : (0:ℝ) < 360),
    div_lt_iff₀ (by norm_num : (0:ℝ) < 360)]

/-- The Mercator forward quantity computed inside `lat2tile`. -/
noncomputable def mercN (lat : ℝ) : ℝ :=
  Real.log (Real.tan (lat * Real.pi / 180) + 1 / Real.cos (lat * Real.pi / 180))

lemma lat2tile_mercN (lat : ℝ) (z : ℕ) :
    lat2tile lat z = ⌊(1 - mercN lat / Real.pi) / 2 * 2 ^ z⌋ := rfl

/-- Latitudes strictly between -90 and 90 scale to angles in `(-pi/2, pi/2)`. -/
lemma angle_mem_Ioo {lat : ℝ} (h1 : -90 < lat) (h2 : lat < 90) :
    lat * Real.pi / 180 ∈ Set.Ioo (-(Real.pi / 2)) (Real.pi / 2) := by
  have hpi := Real.pi_pos
  constructor
  · have h := mul_lt_mul_of_pos_right h1 hpi
    linarith
  · have h := mul_lt_mul_of_pos_right h2 hpi
    linarith

/-- On `(-90, 90)` the Mercator quantity is the inverse hyperbolic sine of
the tangent of the scaled latitude. -/
lemma mercN_eq_arsinh {lat : ℝ} (h1 : -90 < lat) (h2 : lat < 90) :
    mercN lat = Real.arsinh (Real.tan (lat * Real.pi / 180)) := by
  have hmem := angle_mem_Ioo h1 h2
  have hcos : 0 < Real.cos (lat * Real.pi / 180) := Real.cos_pos_of_mem_Ioo hmem
  have hc2 : (1 + Real.tan (lat * Real.pi / 180) ^ 2)⁻¹ =
      Real.cos (lat * Real.pi / 180) ^ 2 := Real.inv_one_add_tan_sq hcos.ne'
  have hsq : 1 + Real.tan (lat * Real.pi / 180) ^ 2 =
      (1 / Real.cos (lat * Real.pi / 180)) ^ 2 := by
    rw [one_div, inv_pow, ← hc2, inv_inv]
  have hsqrt : Real.sqrt (1 + Real.tan (lat * Real.pi / 180) ^ 2) =
      1 / Real.cos (lat * Real.pi / 180) := by
    rw [hsq, Real.sqrt_sq (by positivity)]
  rw [mercN, Real.arsinh, hsqrt]

/-- The hyperbolic-sine identity behind `tile2lat`'s `0.5 * (exp n - exp (-n))`. -/
lemma half_exp_sub (a : ℝ) : 0.5 * (Real.exp a - Real.exp (-a)) = Real.sinh a := by
  rw [Real.sinh_eq]
  ring

/-- Function `tile2lat` written with `sinh`. -/
lemma tile2lat_eq_arctan_sinh (y : ℤ) (z : ℕ) :
    tile2lat y z = 180 / Real.pi *
      Real.arctan (Real.sinh (Real.pi - 2 * Real.pi * (y : ℝ) / 2 ^ z)) := by
  simp only [tile2lat, half_exp_sub]

/-- Function `tile2lat` always lands strictly inside the pole-free band `(-90, 90)`. -/
lemma tile2lat_mem (y : ℤ) (z : ℕ) :
    -90 < tile2lat y z ∧ tile2lat y z < 90 := by
  have hpi := Real.pi_pos
  have hfac : (0:ℝ) < 180 / Real.pi := by positivity
  rw [tile2lat_eq_arctan_sinh]
  set s := Real.sinh (Real.pi - 2 * Real.pi * (y : ℝ) / 2 ^ z)
  have h1 : Real.arctan s < Real.pi / 2 := Real.arctan_lt_pi_div_two s
  have h2 : -(Real.pi / 2) < Real.arctan s := Real.neg_pi_div_two_lt_arctan s
  constructor
  · have := mul_lt_mul_of_pos_left h2 hfac
    have heq : 180 / Real.pi * -(Real.pi / 2) = -90 := by
      field_simp
      ring
    linarith
  · have := mul_lt_mul_of_pos_left h1 hfac
    have heq : 180 / Real.pi * (Real.pi / 2) = 90 := by
      field_simp
      ring
    linarith

/-- Applying the Mercator forward quantity to `tile2lat y z` recovers the
parameter `n = pi - 2*pi*y/2^z` exactly. -/
lemma mercN_tile2lat (y : ℤ) (z : ℕ) :
    mercN (tile2lat y z) = Real.pi - 2 * Real.pi * (y : ℝ) / 2 ^ z := by
  obtain ⟨hm1, hm2⟩ := tile2lat_mem y z
  rw [mercN_eq_arsinh hm1 hm2, tile2lat_eq_arctan_sinh]
  have hangle : 180 / Real.pi *
      Real.arctan (Real.sinh (Real.pi - 2 * Real.pi * (y : ℝ) / 2 ^ z)) * Real.pi / 180 =
      Real.arctan (Real.sinh (Real.pi - 2 * Real.pi * (y : ℝ) / 2 ^ z)) := by
    field_simp
  rw [hangle, Real.tan_arctan, Real.arsinh_sinh]

/-- The Mercator forward quantity is strictly monotone on `(-90, 90)`. -/
lemma mercN_lt_mercN {a b : ℝ} (ha : -90 < a) (hab : a < b) (hb : b < 90) :
    mercN a < mercN b := by
  have ha' : a < 90 := hab.trans hb
  have hb' : -90 < b := ha.trans hab
  rw [mercN_eq_arsinh ha ha', mercN_eq_arsinh hb' hb, Real.arsinh_lt_arsinh]
  apply Real.strictMonoOn_tan (angle_mem_Ioo ha ha') (angle_mem_Ioo hb' hb)
  have hpi := Real.pi_pos
  have := mul_lt_mul_of_pos_right hab hpi
  linarith

/-- Claim C8: the tile-coordinate functions are mutual near-inverses at tile
granularity: a longitude strictly between `tile2lng x z` and
`tile2lng (x+1) z` maps back to tile column `x` under `lng2tile`; a latitude
strictly between `tile2lat (y+1) z` and `tile2lat y z` maps back to tile row
`y` under `lat2tile`; and `tile2lng x z`, `tile2lng (x+1) z` bracket every
longitude of tile column `x`. -/
theorem tile_math_roundtrip :
    (∀ (z : ℕ) (x : ℤ) (lon : ℝ),
        tile2lng x z < lon → lon < tile2lng (x + 1) z → lng2tile lon z = x) ∧
    (∀ (z : ℕ) (y : ℤ) (lat : ℝ),
        tile2lat (y + 1) z < lat → lat < tile2lat y z → lat2tile lat z = y) ∧
    (∀ (z : ℕ) (x : ℤ) (lon : ℝ),
        lng2tile lon z = x → tile2lng x z ≤ lon ∧ lon < tile2lng (x + 1) z) := by
  refine ⟨?_, ?_, ?_⟩
  · intro z x lon h1 h2
    rw [tile2lng_lt_iff] at h1
    rw [show lon < tile2lng (x + 1) z ↔ ¬ tile2lng (x + 1) z ≤ lon by rw [not_le],
      tile2lng_le_iff, not_le] at h2
    rw [lng2tile_eq_iff]
    push_cast at h2 ⊢
    exact ⟨h1.le, h2⟩
  · intro z y lat h1 h2
    have hb1 := tile2lat_mem (y + 1) z
    have hb2 := tile2lat_mem y z
    have hlat1 : -90 < lat := hb1.1.trans h1
    have hlat2 : lat < 90 := h2.trans hb2.2
    have hm1 : mercN (tile2lat (y + 1) z) < mercN lat :=
      mercN_lt_mercN hb1.1 h1 hlat2
    have hm2 : mercN lat < mercN (tile2lat y z) :=
      mercN_lt_mercN hlat1 h2 hb2.2
    rw [mercN_tile2lat] at hm1 hm2
    have hpi := Real.pi_pos
    have h2z := two_pow_pos' z
    set m := mercN lat with hm
    rw [lat2tile_mercN, Int.floor_eq_iff]
    have key2 : m * 2 ^ z < (Real.pi - 2 * Real.pi * (y : ℝ) / 2 ^ z) * 2 ^ z :=
      mul_lt_mul_of_pos_right hm2 h2z
    have key1 : (Real.pi - 2 * Real.pi * ((y : ℝ) + 1) / 2 ^ z) * 2 ^ z < m * 2 ^ z := by
      have := mul_lt_mul_of_pos_right hm1 h2z
      push_cast at this
      exact this
    have expand2 : (Real.pi - 2 * Real.pi * (y : ℝ) / 2 ^ z) * 2 ^ z =
        Real.pi * 2 ^ z - 2 * Real.pi * (y : ℝ) := by
      field_simp
    have expand1 : (Real.pi - 2 * Real.pi * ((y : ℝ) + 1) / 2 ^ z) * 2 ^ z =
        Real.pi * 2 ^ z - 2 * Real.pi * ((y : ℝ) + 1) := by
      field_simp
    rw [expand2] at key2
    rw [expand1] at key1
    constructor
    · rw [div_mul_eq_mul_div, le_div_iff₀ (by norm_num : (0:ℝ) < 2)]
      have hrw : (1 - m / Real.pi) * 2 ^ z =
          (Real.pi * 2 ^ z - m * 2 ^ z) / Real.pi := by
        field_simp
        ring
      rw [hrw, le_div_iff₀ hpi]
      nlinarith
    · rw [div_mul_eq_mul_div, div_lt_iff₀ (by norm_num : (0:ℝ) < 2)]
      have hrw : (1 - m / Real.pi) * 2 ^ z =
          (Real.pi * 2 ^ z - m * 2 ^ z) / Real.pi := by
        field_simp
        ring
      rw [hrw, div_lt_iff₀ hpi]
      push_cast
      nlinarith
  · intro z x lon h
    rw [lng2tile_eq_iff] at h
    refine ⟨?_, ?_⟩
    · rw [tile2lng_le_iff]
      exact h.1
    · rw [show lon < tile2lng (x + 1) z ↔ ¬ tile2lng (x + 1) z ≤ lon by rw [not_le],
        tile2lng_le_iff, not_le]
      push_cast
      linarith [h.2]

/-- Witness for C8: at zoom 0, longitude 0 lies strictly inside tile column
0 and latitude 0 strictly inside tile row 0, and both map back to index 0;
the bracketing then bounds longitude 0 by the edges of tile column 0. -/
theorem tile_math_roundtrip_witness :
    lng2tile 0 0 = 0 ∧ lat2tile 0 0 = 0 ∧
    (tile2lng 0 0 ≤ (0:ℝ) ∧ (0:ℝ) < tile2lng (0 + 1) 0) := by
  have hpi := Real.pi_pos
  have hfac : (0:ℝ) < 180 / Real.pi := by positivity
  have hlon1 : tile2lng 0 0 < 0 := by
    rw [tile2lng]
    norm_num
  have hlon2 : (0:ℝ) < tile2lng (0 + 1) 0 := by
    rw [tile2lng]
    norm_num
  have hlng : lng2tile (0:ℝ) 0 = 0 := tile_math_roundtrip.1 0 0 0 hlon1 hlon2
  have harg0 : Real.pi - 2 * Real.pi * ((0:ℤ) : ℝ) / 2 ^ (0:ℕ) = Real.pi := by
    norm_num
  have harg1 : Real.pi - 2 * Real.pi * (((0:ℤ) + 1) : ℝ) / 2 ^ (0:ℕ) = -Real.pi := by
    norm_num
    ring
  have hlat2 : (0:ℝ) < tile2lat 0 0 := by
    rw [tile2lat_eq_arctan_sinh]
    rw [show (((0:ℤ)) : ℝ) = 0 by norm_num]
    have harg : Real.pi - 2 * Real.pi * (0:ℝ) / 2 ^ (0:ℕ) = Real.pi := by norm_num
    rw [harg]
    have hs : 0 < Real.sinh Real.pi := Real.sinh_pos_iff.2 hpi
    have ha : 0 < Real.arctan (Real.sinh Real.pi) := by
      have := Real.arctan_strictMono hs
      rwa [Real.arctan_zero] at this
    positivity
  have hlat1 : tile2lat (0 + 1) 0 < 0 := by
    rw [tile2lat_eq_arctan_sinh]
    have harg : Real.pi - 2 * Real.pi * (((0 + 1 : ℤ)) : ℝ) / 2 ^ (0:ℕ) = -Real.pi := by
      push_cast
      ring
    rw [harg]
    have hs : Real.sinh (-Real.pi) < 0 := by
      rw [Real.sinh_neg]
      have : 0 < Real.sinh Real.pi := Real.sinh_pos_iff.2 hpi
      linarith
    have ha : Real.arctan (Real.sinh (-Real.pi)) < 0 := by
      have := Real.arctan_strictMono hs
      rwa [Real.arctan_zero] at this
    have := mul_lt_mul_of_pos_left ha hfac
    simpa using this
  exact ⟨hlng, tile_math_roundtrip.2.1 0 0 0 hlat1 hlat2,
    tile_math_roundtrip.2.2 0 0 0 hlng⟩

/-- A geographic bounding box as used by `performTerrainAnalysis`. -/
structure GeoBox where
  north : ℝ
  south : ℝ
  east : ℝ
  west : ℝ

/-- Assignment `xMin = lng2tile(bounds.west, TILE_ZOOM)` (src/index.tsx line 208). -/
noncomputable def xMinOf (b : GeoBox) : ℤ := lng2tile b.west TILE_ZOOM

/-- Assignment `xMax = lng2tile(bounds.east, TILE_ZOOM)` (src/index.tsx line 209). -/
noncomputable def xMaxOf (b : GeoBox) : ℤ := lng2tile b.east TILE_ZOOM

/-- Assignment `yMin = lat2tile(bounds.north, TILE_ZOOM)` (src/index.tsx line 210). -/
noncomputable def yMinOf (b : GeoBox) : ℤ := lat2tile b.north TILE_ZOOM

/-- Assignment `yMax = lat2tile(bounds.south, TILE_ZOOM)` (src/index.tsx line 211). -/
noncomputable def yMaxOf (b : GeoBox) : ℤ := lat2tile b.south TILE_ZOOM

/-- Assignment `mosaicWidth = (xMax - xMin + 1) * TILE_SIZE` (src/index.tsx line 245). -/
def mosaicWidth (xMin xMax : ℤ) : ℕ := (xMax - xMin + 1).toNat * TILE_SIZE

/-- Assignment `mosaicHeight = (yMax - yMin + 1) * TILE_SIZE` (src/index.tsx line 246). -/
def mosaicHeight (yMin yMax : ℤ) : ℕ := (yMax - yMin + 1).toNat * TILE_SIZE

/-- The mosaic's geographic bounds, computed from the tile index extent
(src/index.tsx lines 266-269). -/
noncomputable def mosaicBounds (xMin xMax yMin yMax : ℤ) : GeoBox where
  north := tile2lat yMin TILE_ZOOM
  south := tile2lat (yMax + 1) TILE_ZOOM
  east := tile2lng (xMax + 1) TILE_ZOOM
  west := tile2lng xMin TILE_ZOOM

/-- The mosaic bounds produced for a query box `b`. -/
noncomputable def mosaicBoundsOf (b : GeoBox) : GeoBox :=
  mosaicBounds (xMinOf b) (xMaxOf b) (yMinOf b) (yMaxOf b)

/-- Assignment `degPerPixelX = (east - west) / mosaicWidth` (src/index.tsx line 271). -/
noncomputable def degPerPixelX (g : GeoBox) (W : ℕ) : ℝ := (g.east - g.west) / W

/-- Assignment `degPerPixelY = (north - south) / mosaicHeight` (src/index.tsx line 272). -/
noncomputable def degPerPixelY (g : GeoBox) (H : ℕ) : ℝ := (g.north - g.south) / H

/-- Claim C4: for every query box the mosaic's geographic bounds are derived
from the tile index extent, not the query box: `north = tile2lat yMin`,
`west = tile2lng xMin`, `south = tile2lat (yMax+1)`, `east = tile2lng
(xMax+1)`, with the per-pixel degree sizes derived from them; the mosaic's
east edge lies strictly east of every query box's east edge and its west
edge at or west of the west edge, so the bounds never equal the query box —
for any box at all, hence in particular for one not aligned to tile edges;
when the west edge is not tile-aligned the west bound is strictly outside
as well. -/
theorem mosaic_bounds_from_tile_extent (b : GeoBox) :
    (mosaicBoundsOf b).north = tile2lat (yMinOf b) TILE_ZOOM ∧
    (mosaicBoundsOf b).west = tile2lng (xMinOf b) TILE_ZOOM ∧
    (mosaicBoundsOf b).south = tile2lat (yMaxOf b + 1) TILE_ZOOM ∧
    (mosaicBoundsOf b).east = tile2lng (xMaxOf b + 1) TILE_ZOOM ∧
    degPerPixelX (mosaicBoundsOf b) (mosaicWidth (xMinOf b) (xMaxOf b)) =
      ((mosaicBoundsOf b).east - (mosaicBoundsOf b).west) /
        (mosaicWidth (xMinOf b) (xMaxOf b)) ∧
    degPerPixelY (mosaicBoundsOf b) (mosaicHeight (yMinOf b) (yMaxOf b)) =
      ((mosaicBoundsOf b).north - (mosaicBoundsOf b).south) /
        (mosaicHeight (yMinOf b) (yMaxOf b)) ∧
    (mosaicBoundsOf b).west ≤ b.west ∧
    b.east < (mosaicBoundsOf b).east ∧
    mosaicBoundsOf b ≠ b ∧
    ((∀ k : ℤ, tile2lng k TILE_ZOOM ≠ b.west) →
      (mosaicBoundsOf b).west < b.west) := by
  have hW : (mosaicBoundsOf b).west ≤ b.west := by
    show tile2lng (xMinOf b) TILE_ZOOM ≤ b.west
    rw [tile2lng_le_iff]
    have h := (@lng2tile_eq_iff b.west TILE_ZOOM (xMinOf b)).1 rfl
    exact h.1
  have hE : b.east < (mosaicBoundsOf b).east := by
    show b.east < tile2lng (xMaxOf b + 1) TILE_ZOOM
    have h := (@lng2tile_eq_iff b.east TILE_ZOOM (xMaxOf b)).1 rfl
    rw [show b.east < tile2lng (xMaxOf b + 1) TILE_ZOOM ↔
        ¬ tile2lng (xMaxOf b + 1) TILE_ZOOM ≤ b.east by rw [not_le],
      tile2lng_le_iff, not_le]
    push_cast
    linarith [h.2]
  refine ⟨rfl, rfl, rfl, rfl, rfl, rfl, hW, hE, ?_, ?_⟩
  · intro hcontra
    rw [hcontra] at hE
    exact lt_irrefl _ hE
  · intro hwest
    exact lt_of_le_of_ne hW (hwest (xMinOf b))

/-- Witness for C4: the query box with west edge `45/1024` (half a zoom-12
tile off a tile boundary) is not tile-aligned in its west edge, its mosaic
bounds differ from it, and its west bound is strictly outside. -/
theorem mosaic_bounds_from_tile_extent_witness :
    (∀ k : ℤ, tile2lng k TILE_ZOOM ≠ (⟨0, 0, 0, 45 / 1024⟩ : GeoBox).west) ∧
    mosaicBoundsOf ⟨0, 0, 0, 45 / 1024⟩ ≠ (⟨0, 0, 0, 45 / 1024⟩ : GeoBox) ∧
    (mosaicBoundsOf ⟨0, 0, 0, 45 / 1024⟩).west <
      (⟨0, 0, 0, 45 / 1024⟩ : GeoBox).west := by
  have hal : ∀ k : ℤ, tile2lng k TILE_ZOOM ≠ (⟨0, 0, 0, 45 / 1024⟩ : GeoBox).west := by
    intro k hk
    rw [tile2lng, TILE_ZOOM] at hk
    have h2 : (2:ℝ) * (k : ℝ) = 4097 := by
      have h12 : ((2:ℝ) ^ (12:ℕ)) = 4096 := by norm_num
      rw [h12] at hk
      simp only at hk
      linarith
    have h3 : ((2 * k : ℤ) : ℝ) = ((4097 : ℤ) : ℝ) := by
      push_cast
      linarith
    have h4 : (2 * k : ℤ) = 4097 := Int.cast_injective h3
    omega
  have h := mosaic_bounds_from_tile_extent ⟨0, 0, 0, 45 / 1024⟩
  exact ⟨hal, h.2.2.2.2.2.2.2.2.1, h.2.2.2.2.2.2.2.2.2 hal⟩

/-- One successfully fetched elevation tile: its tile coordinates and its
row-major 512×512 sample grid (flat-indexed as `data[r * TILE_SIZE + c]`). -/
structure FetchedTile where
  x : ℤ
  y : ℤ
  data : ℕ → ℝ

/-- The `tilesToFetch` nested loop (src/index.tsx lines 213-218): every tile
coordinate pair `(x, y)` with `xMin ≤ x ≤ xMax`, `yMin ≤ y ≤ yMax`. -/
def tilesToFetch (xMin xMax yMin yMax : ℤ) : List (ℤ × ℤ) :=
  (List.range (xMax - xMin + 1).toNat).flatMap fun (i : ℕ) =>
    (List.range (yMax - yMin + 1).toNat).map fun (j : ℕ) =>
      (xMin + (i : ℤ), yMin + (j : ℤ))

/-- The copy of one fetched tile into the mosaic buffer (src/index.tsx lines
250-260): the loop writes `mosaicData[(offsetY + r) * mosaicWidth +
(offsetX + c)] = tile.data[r * TILE_SIZE + c]` for all `r, c < TILE_SIZE`,
with offsets `(tile.x - xMin) * TILE_SIZE` and `(tile.y - yMin) * TILE_SIZE`;
functionally, an index inside the tile's rectangle reads the tile's sample
and any other index keeps the previous buffer value. -/
def writeTile (xMin yMin : ℤ) (W : ℕ) (buf : ℕ → ℝ) (tile : FetchedTile) : ℕ → ℝ :=
  fun idx =>
    let offsetX := (tile.x - xMin).toNat * TILE_SIZE
    let offsetY := (tile.y - yMin).toNat * TILE_SIZE
    let r := idx / W
    let c := idx % W
    if offsetY ≤ r ∧ r < offsetY + TILE_SIZE ∧ offsetX ≤ c ∧ c < offsetX + TILE_SIZE then
      tile.data ((r - offsetY) * TILE_SIZE + (c - offsetX))
    else buf idx

/-- The surviving tiles after the fetch batch: `tileBuffers` holds one
`Option` per requested coordinate (a failed fetch yields `null`/`none`,
src/index.tsx lines 223-237) and `validTiles` filters out the failures
(line 239). -/
def validTilesOf (xMin xMax yMin yMax : ℤ) (fetch : ℤ × ℤ → Option (ℕ → ℝ)) :
    List FetchedTile :=
  (((tilesToFetch xMin xMax yMin yMax).map fun p =>
      (fetch p).map fun d => FetchedTile.mk p.1 p.2 d)).filterMap id

/-- Mosaic assembly (src/index.tsx lines 239-260): fail with the typed
"no data" error when no tile survived, otherwise fold every valid tile's
copy loop over the zero-initialized buffer of the full tile-grid extent. -/
def assembleMosaic (xMin xMax yMin yMax : ℤ) (fetch : ℤ × ℤ → Option (ℕ → ℝ)) :
    Except String (ℕ → ℝ) :=
  let validTiles := validTilesOf xMin xMax yMin yMax fetch
  if validTiles.isEmpty then Except.error "Could not download any elevation data."
  else Except.ok
    (validTiles.foldl (writeTile xMin yMin (mosaicWidth xMin xMax)) fun _ => 0)

/-- The flat mosaic index of sample `(r, c)` of the tile at `(tx, ty)`:
`((ty - yMin) * TILE_SIZE + r) * mosaicWidth + ((tx - xMin) * TILE_SIZE + c)`. -/
def tileRegionIdx (xMin yMin : ℤ) (W : ℕ) (tx ty : ℤ) (r c : ℕ) : ℕ :=
  ((ty - yMin).toNat * TILE_SIZE + r) * W + ((tx - xMin).toNat * TILE_SIZE + c)

/-- Membership in the requested tile list is exactly the coordinate ranges. -/
lemma mem_tilesToFetch {xMin xMax yMin yMax : ℤ} {p : ℤ × ℤ} :
    p ∈ tilesToFetch xMin xMax yMin yMax ↔
      xMin ≤ p.1 ∧ p.1 ≤ xMax ∧ yMin ≤ p.2 ∧ p.2 ≤ yMax := by
  rcases p with ⟨px, py⟩
  simp only [tilesToFetch, List.mem_flatMap, List.mem_map, List.mem_range]
  constructor
  · rintro ⟨i, hi, j, hj, heq⟩
    obtain ⟨hx, hy⟩ := Prod.mk.injEq .. ▸ heq
    simp only [Prod.mk.injEq] at heq
    omega
  · rintro ⟨h1, h2, h3, h4⟩
    refine ⟨(px - xMin).toNat, by omega, (py - yMin).toNat, by omega, ?_⟩
    simp only [Prod.mk.injEq]
    omega

/-- The requested tile list enumerates distinct coordinates. -/
lemma tilesToFetch_nodup (xMin xMax yMin yMax : ℤ) :
    (tilesToFetch xMin xMax yMin yMax).Nodup := by
  rw [tilesToFetch, List.nodup_flatMap]
  constructor
  · intro i _
    refine List.Nodup.map ?_ (List.nodup_range _)
    intro j1 j2 h
    simp only [Prod.mk.injEq] at h
    omega
  · refine (List.pairwise_lt_range _).imp ?_
    intro i1 i2 hlt
    intro q hq1 hq2
    simp only [List.mem_map, List.mem_range] at hq1 hq2
    obtain ⟨j1, -, he1⟩ := hq1
    obtain ⟨j2, -, he2⟩ := hq2
    rw [← he2] at he1
    simp only [Prod.mk.injEq] at he1
    omega

/-- Characterization of the surviving tiles. -/
lemma mem_validTilesOf {xMin xMax yMin yMax : ℤ} {fetch : ℤ × ℤ → Option (ℕ → ℝ)}
    {t : FetchedTile} :
    t ∈ validTilesOf xMin xMax yMin yMax fetch ↔
      ∃ p ∈ tilesToFetch xMin xMax yMin yMax,
        ∃ d, fetch p = some d ∧ t = FetchedTile.mk p.1 p.2 d := by
  rw [validTilesOf, List.filterMap_map, List.mem_filterMap]
  constructor
  · rintro ⟨p, hp, hsome⟩
    simp only [Function.comp_apply, Option.map_eq_some', id_eq] at hsome
    obtain ⟨d, hd, hmk⟩ := hsome
    exact ⟨p, hp, d, hd, hmk.symm⟩
  · rintro ⟨p, hp, d, hd, hmk⟩
    refine ⟨p, hp, ?_⟩
    simp only [Function.comp_apply, Option.map_eq_some', id_eq]
    exact ⟨d, hd, hmk.symm⟩

/-- Distinct surviving tiles carry distinct coordinates. -/
lemma validTilesOf_pairwise (xMin xMax yMin yMax : ℤ)
    (fetch : ℤ × ℤ → Option (ℕ → ℝ)) :
    (validTilesOf xMin xMax yMin yMax fetch).Pairwise
      fun a b => (a.x, a.y) ≠ (b.x, b.y) := by
  rw [validTilesOf, List.filterMap_map]
  refine List.Pairwise.filterMap _ ?_ (tilesToFetch_nodup xMin xMax yMin yMax)
  intro p p' hne t ht t' ht'
  simp only [Function.comp_apply, id_eq, Option.mem_def, Option.map_eq_some'] at ht ht'
  obtain ⟨d, -, hmk⟩ := ht
  obtain ⟨d', -, hmk'⟩ := ht'
  rw [← hmk, ← hmk']
  simp only [ne_eq, Prod.mk.injEq, not_and]
  intro hx hy
  exact hne (Prod.ext hx hy)

/-- The column part of a region index is below the mosaic width. -/
lemma regionCol_lt {xMin xMax tx : ℤ} {c : ℕ}
    (hx1 : xMin ≤ tx) (hx2 : tx ≤ xMax) (hc : c < TILE_SIZE) :
    (tx - xMin).toNat * TILE_SIZE + c < mosaicWidth xMin xMax := by
  rw [mosaicWidth, TILE_SIZE] at *
  omega

/-- Row/column recovery of a region index under the mosaic width. -/
lemma region_decomp {xMin yMin xMax tx ty : ℤ} {r c : ℕ}
    (hx1 : xMin ≤ tx) (hx2 : tx ≤ xMax) (hc : c < TILE_SIZE) :
    tileRegionIdx xMin yMin (mosaicWidth xMin xMax) tx ty r c / mosaicWidth xMin xMax =
      (ty - yMin).toNat * TILE_SIZE + r ∧
    tileRegionIdx xMin yMin (mosaicWidth xMin xMax) tx ty r c % mosaicWidth xMin xMax =
      (tx - xMin).toNat * TILE_SIZE + c := by
  have hcol := regionCol_lt hx1 hx2 hc
  have hW : 0 < mosaicWidth xMin xMax := by
    rw [mosaicWidth, TILE_SIZE] at *
    omega
  rw [tileRegionIdx]
  constructor
  · rw [mul_comm ((ty - yMin).toNat * TILE_SIZE + r), Nat.mul_add_div hW,
      Nat.div_eq_of_lt hcol, Nat.add_zero]
  · rw [mul_comm ((ty - yMin).toNat * TILE_SIZE + r), Nat.mul_add_mod,
      Nat.mod_eq_of_lt hcol]

/-- Lemma: `writeTile` stores its sample at the region index of its own tile. -/
lemma writeTile_hit {xMin yMin xMax : ℤ} (buf : ℕ → ℝ) (t : FetchedTile) {r c : ℕ}
    (hx1 : xMin ≤ t.x) (hx2 : t.x ≤ xMax) (hr : r < TILE_SIZE) (hc : c < TILE_SIZE) :
    writeTile xMin yMin (mosaicWidth xMin xMax) buf t
      (tileRegionIdx xMin yMin (mosaicWidth xMin xMax) t.x t.y r c) =
      t.data (r * TILE_SIZE + c) := by
  obtain ⟨hdiv, hmod⟩ := @region_decomp xMin yMin xMax t.x t.y r c hx1 hx2 hc
  simp only [writeTile, hdiv, hmod]
  rw [TILE_SIZE] at hr hc ⊢
  rw [if_pos (by omega)]
  have harg : ((t.y - yMin).toNat * 512 + r - (t.y - yMin).toNat * 512) * 512 +
      ((t.x - xMin).toNat * 512 + c - (t.x - xMin).toNat * 512) = r * 512 + c := by
    omega
  rw [harg]

/-- Lemma: `writeTile` leaves the region index of a tile at different coordinates
unchanged. -/
lemma writeTile_miss {xMin yMin xMax tx ty : ℤ} (buf : ℕ → ℝ) (t' : FetchedTile) {r c : ℕ}
    (hx1 : xMin ≤ tx) (hx2 : tx ≤ xMax) (hy1 : yMin ≤ ty)
    (hx1' : xMin ≤ t'.x) (hy1' : yMin ≤ t'.y)
    (hne : (t'.x, t'.y) ≠ (tx, ty)) (hr : r < TILE_SIZE) (hc : c < TILE_SIZE) :
    writeTile xMin yMin (mosaicWidth xMin xMax) buf t'
      (tileRegionIdx xMin yMin (mosaicWidth xMin xMax) tx ty r c) =
      buf (tileRegionIdx xMin yMin (mosaicWidth xMin xMax) tx ty r c) := by
  obtain ⟨hdiv, hmod⟩ := @region_decomp xMin yMin xMax tx ty r c hx1 hx2 hc
  simp only [writeTile, hdiv, hmod]
  rw [TILE_SIZE] at hr hc ⊢
  rw [if_neg]
  rintro ⟨h1, h2, h3, h4⟩
  apply hne
  have hxeq : t'.x = tx := by omega
  have hyeq : t'.y = ty := by omega
  rw [hxeq, hyeq]

/-- A fold of tile writes that all miss an index leaves the buffer value. -/
lemma foldl_writeTile_untouched (xMin yMin : ℤ) (W : ℕ) (ts : List FetchedTile)
    (buf : ℕ → ℝ) (idx : ℕ)
    (h : ∀ t' ∈ ts, ∀ b : ℕ → ℝ, writeTile xMin yMin W b t' idx = b idx) :
    ts.foldl (writeTile xMin yMin W) buf idx = buf idx := by
  induction ts generalizing buf with
  | nil => rfl
  | cons a l ih =>
    rw [List.foldl_cons, ih _ fun t ht b => h t (List.mem_cons_of_mem _ ht) b]
    exact h a (List.mem_cons_self a l) buf

/-- A fold of coordinate-distinct tile writes stores each member tile's
sample at that tile's region index. -/
lemma foldl_writeTile_hit {xMin xMax yMin : ℤ} (ts : List FetchedTile)
    (t : FetchedTile) {r c : ℕ} (hmem : t ∈ ts)
    (hpair : ts.Pairwise fun a b => (a.x, a.y) ≠ (b.x, b.y))
    (hall : ∀ t' ∈ ts, xMin ≤ t'.x ∧ t'.x ≤ xMax ∧ yMin ≤ t'.y)
    (hr : r < TILE_SIZE) (hc : c < TILE_SIZE) (buf : ℕ → ℝ) :
    ts.foldl (writeTile xMin yMin (mosaicWidth xMin xMax)) buf
      (tileRegionIdx xMin yMin (mosaicWidth xMin xMax) t.x t.y r c) =
      t.data (r * TILE_SIZE + c) := by
  induction ts generalizing buf with
  | nil => cases hmem
  | cons a l ih =>
    obtain ⟨ha1, ha2, ha3⟩ := hall a (List.mem_cons_self a l)
    rcases List.mem_cons.1 hmem with heq | hmem'
    · subst heq
      rw [List.foldl_cons]
      rw [foldl_writeTile_untouched]
      · exact writeTile_hit buf t ha1 ha2 hr hc
      · intro t' ht' b
        obtain ⟨h1', -, h3'⟩ := hall t' (List.mem_cons_of_mem _ ht')
        exact writeTile_miss b t' ha1 ha2 ha3 h1' h3'
          ((List.pairwise_cons.1 hpair).1 t' ht').symm hr hc
    · rw [List.foldl_cons]
      exact ih hmem' (List.pairwise_cons.1 hpair).2
        (fun t' ht' => hall t' (List.mem_cons_of_mem _ ht')) _

/-- A fold of tile writes all at other coordinates leaves the region of the
missing tile at the zero default. -/
lemma foldl_writeTile_zero {xMin xMax yMin : ℤ} (ts : List FetchedTile)
    {tx ty : ℤ} {r c : ℕ}
    (hx1 : xMin ≤ tx) (hx2 : tx ≤ xMax) (hy1 : yMin ≤ ty)
    (hnone : ∀ t' ∈ ts, (t'.x, t'.y) ≠ (tx, ty))
    (hall : ∀ t' ∈ ts, xMin ≤ t'.x ∧ yMin ≤ t'.y)
    (hr : r < TILE_SIZE) (hc : c < TILE_SIZE) :
    ts.foldl (writeTile xMin yMin (mosaicWidth xMin xMax)) (fun _ => 0)
      (tileRegionIdx xMin yMin (mosaicWidth xMin xMax) tx ty r c) = 0 := by
  rw [foldl_writeTile_untouched]
  intro t' ht' b
  obtain ⟨h1', h2'⟩ := hall t' ht'
  exact writeTile_miss b t' hx1 hx2 hy1 h1' h2' (hnone t' ht') hr hc

/-- Claim C5: if no requested tile fetch succeeds, assembly fails with the
typed "no data" error; if at least one succeeds, assembly returns a mosaic
of the full tile-grid extent in which each succeeded tile's 512×512 samples
sit at pixel offset `((tileX - xMin) * 512, (tileY - yMin) * 512)` and the
regions of failed tiles keep the zero-initialized default. -/
theorem partial_tile_failure (xMin xMax yMin yMax : ℤ)
    (fetch : ℤ × ℤ → Option (ℕ → ℝ)) :
    ((∀ p ∈ tilesToFetch xMin xMax yMin yMax, fetch p = none) →
      assembleMosaic xMin xMax yMin yMax fetch =
        Except.error "Could not download any elevation data.") ∧
    ((∃ p ∈ tilesToFetch xMin xMax yMin yMax, (fetch p).isSome) →
      ∃ m : ℕ → ℝ, assembleMosaic xMin xMax yMin yMax fetch = Except.ok m ∧
        (∀ (tx ty : ℤ) (d : ℕ → ℝ), xMin ≤ tx → tx ≤ xMax → yMin ≤ ty → ty ≤ yMax →
            fetch (tx, ty) = some d → ∀ r c, r < TILE_SIZE → c < TILE_SIZE →
            m (tileRegionIdx xMin yMin (mosaicWidth xMin xMax) tx ty r c) =
              d (r * TILE_SIZE + c)) ∧
        (∀ tx ty : ℤ, xMin ≤ tx → tx ≤ xMax → yMin ≤ ty → ty ≤ yMax →
            fetch (tx, ty) = none → ∀ r c, r < TILE_SIZE → c < TILE_SIZE →
            m (tileRegionIdx xMin yMin (mosaicWidth xMin xMax) tx ty r c) = 0)) := by
  constructor
  · intro hnone
    rw [assembleMosaic]
    have hempty : validTilesOf xMin xMax yMin yMax fetch = [] := by
      rw [validTilesOf, List.filterMap_map, List.filterMap_eq_nil_iff]
      intro p hp
      simp only [Function.comp_apply, hnone p hp, Option.map_none', id_eq]
    rw [hempty]
    rfl
  · rintro ⟨p, hp, hsome⟩
    obtain ⟨d, hd⟩ := Option.isSome_iff_exists.1 hsome
    have hmemv : FetchedTile.mk p.1 p.2 d ∈ validTilesOf xMin xMax yMin yMax fetch :=
      mem_validTilesOf.2 ⟨p, hp, d, hd, rfl⟩
    have hne : ¬ (validTilesOf xMin xMax yMin yMax fetch).isEmpty := by
      intro hcontra
      rw [List.isEmpty_iff] at hcontra
      rw [hcontra] at hmemv
      cases hmemv
    have hall : ∀ t' ∈ validTilesOf xMin xMax yMin yMax fetch,
        xMin ≤ t'.x ∧ t'.x ≤ xMax ∧ yMin ≤ t'.y ∧ t'.y ≤ yMax := by
      intro t' ht'
      obtain ⟨q, hq, d', -, hmk⟩ := mem_validTilesOf.1 ht'
      obtain ⟨hq1, hq2, hq3, hq4⟩ := mem_tilesToFetch.1 hq
      rw [hmk]
      exact ⟨hq1, hq2, hq3, hq4⟩
    refine ⟨(validTilesOf xMin xMax yMin yMax fetch).foldl
      (writeTile xMin yMin (mosaicWidth xMin xMax)) fun _ => 0, ?_, ?_, ?_⟩
    · simp only [assembleMosaic]
      rw [if_neg hne]
    · intro tx ty dd h1 h2 h3 h4 hfetch r c hr hc
      have hmemt : FetchedTile.mk tx ty dd ∈ validTilesOf xMin xMax yMin yMax fetch :=
        mem_validTilesOf.2 ⟨(tx, ty), mem_tilesToFetch.2 ⟨h1, h2, h3, h4⟩, dd, hfetch, rfl⟩
      exact foldl_writeTile_hit _ _ hmemt
        (validTilesOf_pairwise xMin xMax yMin yMax fetch)
        (fun t' ht' => ⟨(hall t' ht').1, (hall t' ht').2.1, (hall t' ht').2.2.1⟩)
        hr hc _
    · intro tx ty h1 h2 h3 h4 hfetch r c hr hc
      refine foldl_writeTile_zero _ h1 h2 h3 ?_
        (fun t' ht' => ⟨(hall t' ht').1, (hall t' ht').2.2.1⟩) hr hc
      intro t' ht' hcoords
      obtain ⟨q, hq, d', hd', hmk⟩ := mem_validTilesOf.1 ht'
      rw [hmk] at hcoords
      simp only [Prod.mk.injEq] at hcoords
      have : q = (tx, ty) := Prod.ext hcoords.1 hcoords.2
      rw [this] at hd'
      rw [hd'] at hfetch
      cases hfetch

/-- A concrete fetch outcome for the C5 witness: of the two requested tiles
`(0,0)` and `(0,1)`, only `(0,0)` succeeds, with constant sample value 5. -/
noncomputable def fetchWitness : ℤ × ℤ → Option (ℕ → ℝ) :=
  fun p => if p = (0, 0) then some fun _ => 5 else none

/-- Witness for C5: with one of two requested tiles succeeding, assembly
returns a mosaic holding the succeeded tile's sample at its region and the
zero default in the failed tile's region. -/
theorem partial_tile_failure_witness :
    ((0:ℤ), (0:ℤ)) ∈ tilesToFetch 0 0 0 1 ∧ (fetchWitness (0, 0)).isSome ∧
    ∃ m : ℕ → ℝ, assembleMosaic 0 0 0 1 fetchWitness = Except.ok m ∧
      m (tileRegionIdx 0 0 (mosaicWidth 0 0) 0 0 0 0) = 5 ∧
      m (tileRegionIdx 0 0 (mosaicWidth 0 0) 0 1 0 0) = 0 := by
  have hmem : ((0:ℤ), (0:ℤ)) ∈ tilesToFetch 0 0 0 1 := by
    rw [mem_tilesToFetch]
    norm_num
  have hfe : fetchWitness (0, 0) = some fun _ => 5 := by
    rw [fetchWitness]
    norm_num
  have hsome : (fetchWitness (0, 0)).isSome := by
    rw [hfe]
    rfl
  have hT : 0 < TILE_SIZE := by
    rw [TILE_SIZE]
    norm_num
  obtain ⟨m, hok, hcopy, hzero⟩ :=
    (partial_tile_failure 0 0 0 1 fetchWitness).2 ⟨(0, 0), hmem, hsome⟩
  refine ⟨hmem, hsome, m, hok, ?_, ?_⟩
  · exact hcopy 0 0 (fun _ => 5) le_rfl le_rfl le_rfl (by norm_num) hfe 0 0 hT hT
  · refine hzero 0 1 le_rfl le_rfl (by norm_num) le_rfl ?_ 0 0 hT hT
    rw [fetchWitness]
    norm_num

/-- A linear ring: the vertex list of one polygon boundary, each vertex a
`[longitude, latitude]` pair. -/
abbrev LinearRing := List (ℝ × ℝ)

/-- GeoJSON geometry as consumed by the clipping loop (src/index.tsx lines
354-365): only `Polygon` and `MultiPolygon` contribute rings; anything else
is ignored. -/
inductive GeoGeometry
  | polygon (coordinates : List LinearRing)
  | multiPolygon (coordinates : List (List LinearRing))
  | other

/-- A feature, possibly without geometry (`if (!geometry) return`). -/
structure GeoFeature where
  geometry : Option GeoGeometry

/-- The feature collection passed to the clipping step. -/
structure FeatureCollection where
  features : List GeoFeature

/-- Function `drawRing` (src/index.tsx lines 344-351): an empty ring is skipped;
otherwise `moveTo`/`lineTo`/`closePath` append one closed subpath — the
ring's vertex list — to the single accumulated canvas path. -/
def drawRing (path : List LinearRing) (coords : LinearRing) : List LinearRing :=
  if coords.isEmpty then path else path ++ [coords]

/-- Processing of one feature by the clipping loop: every ring of a
`Polygon` and every ring of every polygon of a `MultiPolygon` is passed to
`drawRing` against the same accumulated path. -/
def processFeature (path : List LinearRing) (f : GeoFeature) : List LinearRing :=
  match f.geometry with
  | none => path
  | some (.polygon rings) => rings.foldl drawRing path
  | some (.multiPolygon polys) =>
      polys.foldl (fun p rings => rings.foldl drawRing p) path
  | some .other => path

/-- The single accumulated path built between `ctx.beginPath()` and
`ctx.fill()` (src/index.tsx lines 353-366). -/
def accumulatedPath (g : FeatureCollection) : List LinearRing :=
  g.features.foldl processFeature []

/-- Modelled from the spec: the actual `ctx.fill()` of the accumulated path
is performed by the browser canvas API, which is not part of the repository.
Per the spec (§4.4), "All rings — whether meant as outer boundaries or holes
— are filled identically", i.e. a pixel is kept opaque exactly when it lies
inside at least one accumulated ring under a given point-in-ring test
`inside`; no ring is ever subtracted. -/
def fillMask (inside : ℝ × ℝ → LinearRing → Bool) (path : List LinearRing)
    (p : ℝ × ℝ) : Bool :=
  path.any (inside p)

/-- Lemma: `drawRing` never removes a subpath. -/
lemma mem_drawRing_of_mem {path : List LinearRing} {x ring : LinearRing}
    (hx : x ∈ path) : x ∈ drawRing path ring := by
  rw [drawRing]
  split
  · exact hx
  · exact List.mem_append_left _ hx

/-- A fold of `drawRing` calls never removes a subpath. -/
lemma mem_foldl_drawRing_of_mem (rings : List LinearRing) {path : List LinearRing}
    {x : LinearRing} (hx : x ∈ path) : x ∈ rings.foldl drawRing path := by
  induction rings generalizing path with
  | nil => exact hx
  | cons a l ih => exact ih (mem_drawRing_of_mem hx)

/-- A fold of `drawRing` calls adds every nonempty ring of its list. -/
lemma mem_foldl_drawRing (rings : List LinearRing) {path : List LinearRing}
    {ring : LinearRing} (hmem : ring ∈ rings) (hne : ring.isEmpty = false) :
    ring ∈ rings.foldl drawRing path := by
  induction rings generalizing path with
  | nil => cases hmem
  | cons a l ih =>
    rcases List.mem_cons.1 hmem with heq | hmem'
    · subst heq
      rw [List.foldl_cons]
      apply mem_foldl_drawRing_of_mem
      rw [drawRing, hne]
      simp
    · exact ih hmem'

/-- The nested `MultiPolygon` fold never removes a subpath. -/
lemma mem_foldl_polys_of_mem (polys : List (List LinearRing))
    {path : List LinearRing} {x : LinearRing} (hx : x ∈ path) :
    x ∈ polys.foldl (fun p rings => rings.foldl drawRing p) path := by
  induction polys generalizing path with
  | nil => exact hx
  | cons a l ih => exact ih (mem_foldl_drawRing_of_mem a hx)

/-- Lemma: `processFeature` never removes a subpath. -/
lemma mem_processFeature_of_mem {f : GeoFeature} {path : List LinearRing}
    {x : LinearRing} (hx : x ∈ path) : x ∈ processFeature path f := by
  rw [processFeature]
  rcases f.geometry with - | g
  · exact hx
  · rcases g with rings | polys | -
    · exact mem_foldl_drawRing_of_mem rings hx
    · exact mem_foldl_polys_of_mem polys hx
    · exact hx

/-- The feature fold never removes a subpath. -/
lemma mem_foldl_features_of_mem (fs : List GeoFeature) {path : List LinearRing}
    {x : LinearRing} (hx : x ∈ path) : x ∈ fs.foldl processFeature path := by
  induction fs generalizing path with
  | nil => exact hx
  | cons a l ih => exact ih (mem_processFeature_of_mem hx)

/-- If some feature of the list contributes a ring regardless of the
incoming path, the whole fold contains that ring. -/
lemma mem_foldl_features (fs : List GeoFeature) {f : GeoFeature}
    {ring : LinearRing} (hf : f ∈ fs)
    (hadd : ∀ path, ring ∈ processFeature path f) :
    ∀ path, ring ∈ fs.foldl processFeature path := by
  induction fs with
  | nil => cases hf
  | cons a l ih =>
    intro path
    rcases List.mem_cons.1 hf with heq | hf'
    · subst heq
      exact mem_foldl_features_of_mem l (hadd path)
    · exact ih hf' _

/-- Claim C6: during clipping every ring of every `Polygon` and
`MultiPolygon` — outer boundary or hole alike — is added to the one
accumulated path and filled identically, so a pixel inside an inner (hole)
ring is kept opaque by the fill rather than excluded; in particular a pixel
inside the inner ring of a donut-shaped polygon `[outer, inner]` stays
opaque. -/
theorem rings_filled_identically :
    (∀ (g : FeatureCollection) (f : GeoFeature) (rings : List LinearRing)
        (ring : LinearRing),
        f ∈ g.features → f.geometry = some (.polygon rings) → ring ∈ rings →
        ring.isEmpty = false → ring ∈ accumulatedPath g) ∧
    (∀ (g : FeatureCollection) (f : GeoFeature) (polys : List (List LinearRing))
        (rings : List LinearRing) (ring : LinearRing),
        f ∈ g.features → f.geometry = some (.multiPolygon polys) → rings ∈ polys →
        ring ∈ rings → ring.isEmpty = false → ring ∈ accumulatedPath g) ∧
    (∀ (inside : ℝ × ℝ → LinearRing → Bool) (g : FeatureCollection) (p : ℝ × ℝ)
        (ring : LinearRing), ring ∈ accumulatedPath g → inside p ring = true →
        fillMask inside (accumulatedPath g) p = true) ∧
    (∀ (inside : ℝ × ℝ → LinearRing → Bool) (g : FeatureCollection)
        (f : GeoFeature) (outer inner : LinearRing) (p : ℝ × ℝ),
        f ∈ g.features → f.geometry = some (.polygon [outer, inner]) →
        inner.isEmpty = false → inside p inner = true →
        fillMask inside (accumulatedPath g) p = true) := by
  have hpoly : ∀ (g : FeatureCollection) (f : GeoFeature) (rings : List LinearRing)
      (ring : LinearRing),
      f ∈ g.features → f.geometry = some (.polygon rings) → ring ∈ rings →
      ring.isEmpty = false → ring ∈ accumulatedPath g := by
    intro g f rings ring hf hgeom hmem hne
    refine mem_foldl_features g.features hf (fun path => ?_) []
    rw [processFeature, hgeom]
    exact mem_foldl_drawRing rings hmem hne
  have hfill : ∀ (inside : ℝ × ℝ → LinearRing → Bool) (g : FeatureCollection)
      (p : ℝ × ℝ) (ring : LinearRing),
      ring ∈ accumulatedPath g → inside p ring = true →
      fillMask inside (accumulatedPath g) p = true := by
    intro inside g p ring hmem hin
    rw [fillMask, List.any_eq_true]
    exact ⟨ring, hmem, hin⟩
  refine ⟨hpoly, ?_, hfill, ?_⟩
  · intro g f polys rings ring hf hgeom hmemp hmem hne
    refine mem_foldl_features g.features hf (fun path => ?_) []
    rw [processFeature, hgeom]
    have : ∀ (l : List (List LinearRing)) (path : List LinearRing), rings ∈ l →
        ring ∈ l.foldl (fun p rs => rs.foldl drawRing p) path := by
      intro l
      induction l with
      | nil => intro path h; cases h
      | cons a t ih =>
        intro path h
        rcases List.mem_cons.1 h with heq | h'
        · subst heq
          exact mem_foldl_polys_of_mem t (mem_foldl_drawRing rings hmem hne)
        · exact ih _ h'
    exact this polys _ hmemp
  · intro inside g f outer inner p hf hgeom hne hin
    exact hfill inside g p inner (hpoly g f [outer, inner] inner hf hgeom (by simp) hne) hin

/-- Witness for C6: a one-feature donut — outer square and inner square —
with a point-in-ring test that puts `(5, 5)` inside the inner ring; the
inner ring reaches the accumulated path and the fill keeps the point
opaque. -/
theorem rings_filled_identically_witness :
    fillMask
      (fun p ring => decide (p = (5, 5) ∧
        ring = [(4, 4), (6, 4), (6, 6), (4, 6), (4, 4)]))
      (accumulatedPath ⟨[⟨some (.polygon
        [[(0, 0), (10, 0), (10, 10), (0, 10), (0, 0)],
         [(4, 4), (6, 4), (6, 6), (4, 6), (4, 4)]])⟩]⟩)
      (5, 5) = true := by
  refine rings_filled_identically.2.2.2
    (fun p ring => decide (p = (5, 5) ∧
      ring = [(4, 4), (6, 4), (6, 6), (4, 6), (4, 4)]))
    ⟨[⟨some (.polygon
      [[(0, 0), (10, 0), (10, 10), (0, 10), (0, 0)],
       [(4, 4), (6, 4), (6, 6), (4, 6), (4, 4)]])⟩]⟩
    ⟨some (.polygon
      [[(0, 0), (10, 0), (10, 10), (0, 10), (0, 0)],
       [(4, 4), (6, 4), (6, 6), (4, 6), (4, 4)]])⟩
    [(0, 0), (10, 0), (10, 10), (0, 10), (0, 0)]
    [(4, 4), (6, 4), (6, 6), (4, 6), (4, 4)]
    (5, 5) ?_ ?_ ?_ ?_
  · simp
  · rfl
  · rfl
  · simp

end SlopeAnalysis
